import Mathlib

/-!
Verification development for the `estacionamiento` application (`src/app.py`).

The application is a Flask + SQLAlchemy CRUD app over three tables
(`neighbors`, `vehicles`, `payments`) plus an on-disk upload store.  We give a
shallow embedding: the database is a record of lists (kept in insertion /
rowid order, as SQLite stores and scans them), the upload directory is a list
of stored file names, and each route handler of interest becomes a pure
function from the old state (plus the request's form fields) to a new state
together with an `Except`-style outcome.

Conventions of the embedding:
* Strings are modelled over their character lists; the Python string helpers
  that the code uses (`str.strip`, `str.split`, `"_".join`, `str.lower`,
  `str.rsplit`) are reproduced for ASCII input (the library also handles
  Unicode digits / whitespace / NFKD normalization, which is out of scope of
  this model).
* `float(amount_raw)` is modelled by `pyFloat`, which reproduces which strings
  CPython's `float` constructor accepts (decimal literals with optional sign,
  fraction, exponent and digit-group underscores, plus the special tokens
  `inf`, `infinity`, `nan`).  The numeric value is abstracted to its
  classification (finite / infinite / nan); no claim depends on the value.
* `datetime.utcnow()` is an input of the operation (a `DateTime` record);
  `strftime("%Y%m%d%H%M%S%f")` becomes `fmtTimestamp`.  The code calls
  `utcnow` once for the file name and once (via the column default) for
  `created_at`; the embedding uses a single instant, which no claim
  distinguishes.
* `os.remove` inside `delete_payment` can succeed, raise `FileNotFoundError`,
  or raise another `OSError`; that environment outcome is an explicit input
  (`OsRemove`).
-/

namespace Estacionamiento

/-! ### Python string helpers (ASCII) -/

/-- Characters treated as whitespace by Python's `str.strip()` / `str.split()`
(ASCII part). -/
def isPySpace (c : Char) : Bool :=
  c = ' ' || c = '\t' || c = '\n' || c = '\r' || c = Char.ofNat 11 || c = Char.ofNat 12

/-- Model of Python `s.strip()`: drop whitespace from both ends. -/
def pyStrip (s : String) : String :=
  String.mk (((s.data.dropWhile isPySpace).reverse.dropWhile isPySpace).reverse)

/-! ### Model of CPython `float(string)` acceptance -/

/-- Tail of a digit group: digits with single underscores allowed only between
two digits (CPython numeric-literal underscore rule). -/
def digitTail : List Char → Bool
  | [] => true
  | c :: rest =>
    if c.isDigit then digitTail rest
    else if c = '_' then
      match rest with
      | [] => false
      | d :: rest2 => d.isDigit && digitTail rest2
    else false

/-- Nonempty digit group (underscores only between digits). -/
def digitsU (l : List Char) : Bool :=
  match l with
  | [] => false
  | c :: rest => c.isDigit && digitTail rest

/-- Exponent part after the `e`: optional sign then a digit group. -/
def expTail : List Char → Bool
  | '+' :: rest => digitsU rest
  | '-' :: rest => digitsU rest
  | rest => digitsU rest

/-- Mantissa: `digits`, `digits.`, `.digits` or `digits.digits`. -/
def mantOK (l : List Char) : Bool :=
  match l.span (fun c => c ≠ '.') with
  | (ip, []) => digitsU ip
  | (ip, _ :: fp) =>
    if fp.isEmpty then digitsU ip
    else if ip.isEmpty then digitsU fp
    else digitsU ip && digitsU fp

/-- Decimal float literal body (already lowercased, sign already removed):
mantissa with optional `e`-exponent. -/
def floatBody (l : List Char) : Bool :=
  match l.span (fun c => c ≠ 'e') with
  | (m, []) => mantOK m
  | (m, _ :: ex) => mantOK m && expTail ex

/-- Classification of a successfully parsed Python float. -/
inductive PyFloat where
  | finite
  | infinite
  | nan
deriving DecidableEq, Repr

/-- Drop one leading `+` or `-`. -/
def stripSign : List Char → List Char
  | '+' :: rest => rest
  | '-' :: rest => rest
  | l => l

/-- Model of `float(s)` for an (already stripped, ASCII) string: `none` when
the constructor raises `ValueError`, otherwise the classification of the
resulting value.  `inf`, `infinity` and `nan` (any case, optional sign) are
accepted and produce non-finite values. -/
def pyFloat (s : String) : Option PyFloat :=
  let l := stripSign (s.data.map Char.toLower)
  if l = "inf".data || l = "infinity".data then some PyFloat.infinite
  else if l = "nan".data then some PyFloat.nan
  else if floatBody l then some PyFloat.finite
  else none

/-! ### File name handling (`allowed_file`, `werkzeug.utils.secure_filename`) -/

/-- Text after the last `.` of a filename: `filename.rsplit(".", 1)[1]`. -/
def afterLastDot (l : List Char) : List Char :=
  (l.reverse.takeWhile (fun c => c ≠ '.')).reverse

/-- The fixed allow-set of `app.py`. -/
def ALLOWED_EXTENSIONS : List (List Char) :=
  ["png".data, "jpg".data, "jpeg".data, "gif".data, "pdf".data]

/-- `allowed_file` from `app.py`: the name contains a `.` and the lowercased
text after the final `.` is in the allow-set. -/
def allowed_file (filename : String) : Bool :=
  filename.data.contains '.' &&
    ALLOWED_EXTENSIONS.contains ((afterLastDot filename.data).map Char.toLower)

/-- Characters kept by `secure_filename`'s regex `[A-Za-z0-9_.-]`. -/
def goodChar (c : Char) : Bool :=
  c.isAlpha || c.isDigit || c = '_' || c = '.' || c = '-'

/-- Model of Python `s.split()` (split on whitespace runs, no empty chunks);
`acc` holds the current chunk reversed. -/
def splitWsAux : List Char → List Char → List (List Char)
  | [], acc => if acc.isEmpty then [] else [acc.reverse]
  | c :: rest, acc =>
    if isPySpace c then
      if acc.isEmpty then splitWsAux rest []
      else acc.reverse :: splitWsAux rest []
    else splitWsAux rest (c :: acc)

/-- Model of `"_".join chunks`. -/
def joinU : List (List Char) → List Char
  | [] => []
  | [x] => x
  | x :: y :: xs => x ++ '_' :: joinU (y :: xs)

/-- Characters stripped from both ends by `secure_filename` (`.strip("._")`). -/
def isStripC (c : Char) : Bool := c = '.' || c = '_'

/-- Model of `werkzeug.utils.secure_filename` on character lists for ASCII
input on a POSIX system: replace `/` by a space, collapse whitespace runs to
single `_` (dropping leading/trailing runs), delete characters outside
`[A-Za-z0-9_.-]`, then strip `.` and `_` from both ends.  (The NFKD +
ASCII-ignore step of the library is the identity on ASCII input.) -/
def secureList (l : List Char) : List Char :=
  ((((joinU (splitWsAux (l.map (fun c => if c = '/' then ' ' else c)) [])).filter
      goodChar).dropWhile isStripC).reverse.dropWhile isStripC).reverse

/-- Model of `werkzeug.utils.secure_filename` (see `secureList`). -/
def secureFilename (s : String) : String :=
  String.mk (secureList s.data)

/-- Text before the last `.` of a filename (`filename.rsplit(".", 1)[0]`). -/
def beforeLastDot (l : List Char) : List Char :=
  ((l.reverse.dropWhile (fun c => c ≠ '.')).drop 1).reverse

/-- Characters that `secure_filename` keeps and does not strip from the ends:
letters, digits and `-`. -/
def keepChar (c : Char) : Bool :=
  c.isAlpha || c.isDigit || c = '-'

/-! ### Timestamps -/

/-- An instant as used by `datetime.utcnow()`. -/
structure DateTime where
  year : Nat
  month : Nat
  day : Nat
  hour : Nat
  minute : Nat
  second : Nat
  micro : Nat
deriving DecidableEq, Repr

/-- Field bounds under which the fixed-width digit rendering below agrees with
`strftime` (every real `datetime` satisfies them). -/
def DateTime.Valid (t : DateTime) : Prop :=
  t.year < 10000 ∧ t.month < 100 ∧ t.day < 100 ∧ t.hour < 100 ∧
    t.minute < 100 ∧ t.second < 100 ∧ t.micro < 1000000

/-- Zero-padded fixed-width decimal rendering of `n` (width `w`). -/
def pad (w n : Nat) : List Char :=
  (List.range w).reverse.map (fun i => Nat.digitChar (n / 10 ^ i % 10))

/-- Model of `datetime.utcnow().strftime("%Y%m%d%H%M%S%f")`. -/
def fmtTimestamp (t : DateTime) : String :=
  String.mk (pad 4 t.year ++ pad 2 t.month ++ pad 2 t.day ++ pad 2 t.hour ++
    pad 2 t.minute ++ pad 2 t.second ++ pad 6 t.micro)

/-- Encoding of an instant as a sort key (used for `created_at`; strictly
monotone in the lexicographic field order for valid instants). -/
def dtKey (t : DateTime) : Nat :=
  ((((((t.year * 100 + t.month) * 100 + t.day) * 100 + t.hour) * 100 + t.minute) * 100
      + t.second) * 1000000) + t.micro

/-! ### Data model -/

/-- Row of the `neighbors` table. -/
structure Neighbor where
  id : Nat
  first_name : String
  last_name : String
  address : String
deriving DecidableEq, Repr

/-- Row of the `vehicles` table. -/
structure Vehicle where
  id : Nat
  license_plate : String
  make : String
  model : String
  control_number : String
  neighbor_id : Nat
deriving DecidableEq, Repr

/-- Row of the `payments` table.  `amount` keeps only the classification of
the parsed float (see `pyFloat`). -/
structure Payment where
  id : Nat
  neighbor_id : Nat
  method : String
  amount : PyFloat
  deposit_account : Option String
  screenshot_path : Option String
  created_at : Nat
deriving DecidableEq, Repr

/-- Whole application state: the three tables (lists in insertion order, as
SQLite scans them) plus the upload directory contents. -/
structure DB where
  neighbors : List Neighbor
  vehicles : List Vehicle
  payments : List Payment
  files : List String
deriving DecidableEq, Repr

/-- Request outcomes of the handlers (404, flashed validation error, flashed
file-type error, propagated storage/OS exception). -/
inductive AppErr where
  | notFound
  | validationError
  | unsupportedFileType
  | storageFailure
deriving DecidableEq, Repr

/-- Decidable equality of request outcomes (used only to evaluate concrete
instances). -/
instance {ε α : Type} [DecidableEq ε] [DecidableEq α] : DecidableEq (Except ε α) := fun x y =>
  match x, y with
  | Except.ok a, Except.ok b =>
    if h : a = b then isTrue (h ▸ rfl) else isFalse (fun hc => h (by cases hc; rfl))
  | Except.ok _, Except.error _ => isFalse (fun hc => Except.noConfusion hc)
  | Except.error _, Except.ok _ => isFalse (fun hc => Except.noConfusion hc)
  | Except.error a, Except.error b =>
    if h : a = b then isTrue (h ▸ rfl) else isFalse (fun hc => h (by cases hc; rfl))

/-- An uploaded file as seen by the handler (content is irrelevant to every
claim; saving it records the stored name in `DB.files`). -/
structure Upload where
  filename : String
deriving DecidableEq, Repr

/-- Environment outcome of the `os.remove` call in `delete_payment`. -/
inductive OsRemove where
  | removed
  | missing
  | failed
deriving DecidableEq, Repr

/-- Existence test used by `Model.query.get_or_404`. -/
def neighborExists (db : DB) (nid : Nat) : Bool :=
  db.neighbors.any (fun n => n.id = nid)

/-- Autoincrement primary key for a new payment row. -/
def nextPaymentId (db : DB) : Nat :=
  List.foldr Nat.max 0 (db.payments.map (fun p => p.id)) + 1

/-! ### SQL LIKE matching (SQLite semantics for `ilike`) -/

/-- SQLite `LIKE` matcher, case-insensitive on ASCII letters (`ilike` compiles
to `lower(x) LIKE lower(y)`; SQLite's `lower` and `LIKE` are ASCII-only):
`%` matches any (possibly empty) sequence, `_` any single character, every
other pattern character matches itself up to ASCII case. -/
def likeMatch : List Char → List Char → Bool
  | [], t => t.isEmpty
  | c :: p2, t =>
    if c = '%' then t.tails.any (fun s => likeMatch p2 s)
    else
      match t with
      | [] => false
      | d :: t2 => (if c = '_' then true else c.toLower = d.toLower) && likeMatch p2 t2

/-- The pattern `f"%{query}%"` built by `portal_search`. -/
def likePattern (q : String) : List Char := '%' :: (q.data ++ ['%'])

/-- Disjunction of the three `ilike` filters of `portal_search`. -/
def neighborMatches (q : String) (n : Neighbor) : Bool :=
  likeMatch (likePattern q) n.first_name.data ||
    likeMatch (likePattern q) n.last_name.data ||
    likeMatch (likePattern q) n.address.data

/-- Ordering used by `order_by(Neighbor.last_name)` (byte order on UTF-8 =
code-point order). -/
def neighborLe (a b : Neighbor) : Bool := a.last_name ≤ b.last_name

/-- Ordering used by `order_by(Payment.created_at.desc())`: `a` may come
before `b` when `a`'s timestamp is not smaller. -/
def payLe (a b : Payment) : Bool := b.created_at ≤ a.created_at

/-! ### Operations (the route handlers of `app.py`) -/

/-- POST branch of `portal_search`: strip the query; an empty query returns no
rows, otherwise filter the neighbors with the three `ilike` clauses and order
by last name.  Ordering is modelled by a stable merge sort. -/
def searchNeighbors (db : DB) (queryRaw : String) : List Neighbor :=
  let q := pyStrip queryRaw
  if q = "" then []
  else (db.neighbors.filter (neighborMatches q)).mergeSort neighborLe

/-- Listing of `manage_payments` (GET part) and `portal_detail`: the
neighbor's payments ordered by `created_at` descending. -/
def listPayments (db : DB) (nid : Nat) : List Payment :=
  (db.payments.filter (fun p => p.neighbor_id = nid)).mergeSort payLe

/-- `delete_user`: 404 when the id is absent, otherwise delete the row; the
`cascade="all, delete-orphan"` relationships delete the neighbor's vehicles
and payments with it.  Upload-store files are not touched. -/
def deleteNeighbor (db : DB) (nid : Nat) : DB × Except AppErr Unit :=
  if neighborExists db nid then
    ({ db with
        neighbors := db.neighbors.filter (fun n => n.id ≠ nid),
        vehicles := db.vehicles.filter (fun v => v.neighbor_id ≠ nid),
        payments := db.payments.filter (fun p => p.neighbor_id ≠ nid) },
      Except.ok ())
  else (db, Except.error AppErr.notFound)

/-- `delete_vehicle`: 404 when the neighbor id is absent or no vehicle row has
both the given primary key and the given owner; otherwise delete that row. -/
def deleteVehicle (db : DB) (nid vid : Nat) : DB × Except AppErr Unit :=
  if neighborExists db nid then
    match db.vehicles.find? (fun v => v.id = vid && v.neighbor_id = nid) with
    | none => (db, Except.error AppErr.notFound)
    | some _ =>
      ({ db with vehicles := db.vehicles.filter (fun v => v.id ≠ vid) }, Except.ok ())
  else (db, Except.error AppErr.notFound)

/-- `delete_payment`: 404 unless a payment row has the given primary key and
owner; if it references a screenshot, `os.remove` is attempted first —
`FileNotFoundError` is swallowed, any other `OSError` propagates before the
row is deleted; finally the row is deleted. -/
def deletePayment (db : DB) (nid pid : Nat) (osr : OsRemove) : DB × Except AppErr Unit :=
  match db.payments.find? (fun p => p.id = pid && p.neighbor_id = nid) with
  | none => (db, Except.error AppErr.notFound)
  | some p =>
    match p.screenshot_path with
    | none =>
      ({ db with payments := db.payments.filter (fun q => q.id ≠ pid) }, Except.ok ())
    | some name =>
      match osr with
      | OsRemove.failed => (db, Except.error AppErr.storageFailure)
      | OsRemove.removed =>
        ({ db with
            payments := db.payments.filter (fun q => q.id ≠ pid),
            files := db.files.filter (fun m => m ≠ name) },
          Except.ok ())
      | OsRemove.missing =>
        ({ db with payments := db.payments.filter (fun q => q.id ≠ pid) }, Except.ok ())

/-- POST branch of `manage_payments`: 404 when the neighbor id is absent;
strip the fields; `deposit_account` keeps the stripped value or becomes
`None` when it is empty (`... .strip() or None`); parse the amount with
`float`; reject when the method is empty or the amount failed to parse;
otherwise run file intake (no file or empty filename = no attachment, bad
extension = reject with no state change, good extension = write the file
under `timestamp_securename`), then insert the payment row. -/
def createPayment (db : DB) (nid : Nat) (methodRaw amountRaw depositRaw : String)
    (screenshot : Option Upload) (now : DateTime) : DB × Except AppErr Unit :=
  if neighborExists db nid then
    let method := pyStrip methodRaw
    let deposit := if pyStrip depositRaw = "" then none else some (pyStrip depositRaw)
    match pyFloat (pyStrip amountRaw) with
    | none => (db, Except.error AppErr.validationError)
    | some amount =>
      if method = "" then (db, Except.error AppErr.validationError)
      else
        let intake : Except AppErr (Option String) :=
          match screenshot with
          | none => Except.ok none
          | some f =>
            if f.filename = "" then Except.ok none
            else if allowed_file f.filename then
              Except.ok (some (fmtTimestamp now ++ "_" ++ secureFilename f.filename))
            else Except.error AppErr.unsupportedFileType
        match intake with
        | Except.error e => (db, Except.error e)
        | Except.ok path? =>
          ({ db with
              payments := db.payments ++
                [{ id := nextPaymentId db, neighbor_id := nid, method := method,
                   amount := amount, deposit_account := deposit,
                   screenshot_path := path?, created_at := dtKey now }],
              files :=
                match path? with
                | none => db.files
                | some stored => db.files ++ [stored] },
            Except.ok ())
  else (db, Except.error AppErr.notFound)

/-! ### Specification-side definitions (used to compare against the code) -/

/-- Literal prefix test on character lists. -/
def begins : List Char → List Char → Bool
  | [], _ => true
  | _ :: _, [] => false
  | a :: n, b :: h => a = b && begins n h

/-- Literal substring test on character lists. -/
def subLit (n : List Char) : List Char → Bool
  | [] => n.isEmpty
  | hd :: t => begins n (hd :: t) || subLit n t

/-- Case-insensitive (ASCII) substring test on strings — the spec's reading of
"matches ... on first name OR last name OR address substring". -/
def ciSubstr (needle hay : String) : Bool :=
  subLit (needle.data.map Char.toLower) (hay.data.map Char.toLower)

/-- Spec-side predicate of claim C3: the raw amount parses as a *finite*
number. -/
def finiteParse (s : String) : Bool := pyFloat s = some PyFloat.finite

/-- Queries containing no SQL `LIKE` wildcard. -/
def noWild (s : String) : Bool := s.data.all (fun c => c ≠ '%' && c ≠ '_')

/-! ### Concrete fixtures for witnesses and counterexamples -/

/-- Sample neighbor. -/
def n1 : Neighbor := ⟨1, "Ana", "Boe", "Calle 1"⟩

/-- Second sample neighbor. -/
def n2 : Neighbor := ⟨2, "Juan", "Cruz", "Calle 2"⟩

/-- Sample vehicle of `n1`. -/
def v1 : Vehicle := ⟨1, "ABC123", "Ford", "Ka", "C7", 1⟩

/-- Sample vehicle of `n2`. -/
def v2 : Vehicle := ⟨7, "XYZ987", "VW", "Golf", "C9", 2⟩

/-- Sample payment of `n1` without screenshot. -/
def p1 : Payment := ⟨1, 1, "cash", PyFloat.finite, none, none, 5⟩

/-- Sample payment of `n1` with screenshot. -/
def p2 : Payment := ⟨2, 1, "transfer", PyFloat.finite, some "bbva", some "x.png", 6⟩

/-- State with one neighbor and nothing else. -/
def db0 : DB := ⟨[n1], [], [], []⟩

/-- State with one neighbor owning a vehicle and a payment. -/
def db1 : DB := ⟨[n1], [v1], [p1], []⟩

/-- State with two neighbors and a vehicle owned by the second. -/
def db2 : DB := ⟨[n1, n2], [v2], [], []⟩

/-- State with one neighbor owning a payment whose screenshot is on disk. -/
def db3 : DB := ⟨[n1], [], [p2], ["x.png"]⟩

/-- Sample instant. -/
def dt0 : DateTime := ⟨2024, 5, 6, 7, 8, 9, 123456⟩

/-! ### C1 — rejected upload aborts payment creation -/

/-- C1: a payment-creation request with valid method and amount and an
attached file whose name fails `allowed_file` (no `.`, or extension outside
the allow-set) ends in `UnsupportedFileType` with the state unchanged: no
`Payment` row is created and no file is written to the upload store. -/
theorem createPayment_rejects_bad_extension
    (db : DB) (nid : Nat) (m a d : String) (f : Upload) (now : DateTime)
    (hn : neighborExists db nid = true)
    (hm : pyStrip m ≠ "")
    (ha : pyFloat (pyStrip a) ≠ none)
    (hf : f.filename ≠ "")
    (hbad : allowed_file f.filename = false) :
    createPayment db nid m a d (some f) now =
      (db, Except.error AppErr.unsupportedFileType) := by
  unfold createPayment
  rw [hn]
  cases hpf : pyFloat (pyStrip a) with
  | none => exact absurd hpf ha
  | some amount => simp [hm, hf, hbad]

/-- Witness for C1 at the spec's own example `evidence.exe`. -/
theorem createPayment_rejects_bad_extension_witness :
    createPayment db0 1 "cash" "12.50" "" (some ⟨"evidence.exe"⟩) dt0 =
      (db0, Except.error AppErr.unsupportedFileType) :=
  createPayment_rejects_bad_extension db0 1 "cash" "12.50" "" ⟨"evidence.exe"⟩ dt0
    (by decide) (by decide) (by decide) (by decide) (by decide)

/-! ### C2 — deleting a neighbor cascades to its children -/

/-- C2: deleting a stored neighbor succeeds and removes the neighbor together
with every vehicle and payment referencing its id (no orphaned child rows, and
the payment listing for that id is empty), and a second delete of the same id
reports `NotFound` without changing anything. -/
theorem deleteNeighbor_cascades (db : DB) (nid : Nat)
    (hn : neighborExists db nid = true) :
    ∃ db', deleteNeighbor db nid = (db', Except.ok ()) ∧
      (∀ n ∈ db'.neighbors, n.id ≠ nid) ∧
      (∀ v ∈ db'.vehicles, v.neighbor_id ≠ nid) ∧
      (∀ p ∈ db'.payments, p.neighbor_id ≠ nid) ∧
      listPayments db' nid = [] ∧
      deleteNeighbor db' nid = (db', Except.error AppErr.notFound) := by
  have hstep : deleteNeighbor db nid =
      ({ db with
          neighbors := db.neighbors.filter (fun n => n.id ≠ nid),
          vehicles := db.vehicles.filter (fun v => v.neighbor_id ≠ nid),
          payments := db.payments.filter (fun p => p.neighbor_id ≠ nid) },
        Except.ok ()) := by
    simp [deleteNeighbor, hn]
  refine ⟨_, hstep, ?_, ?_, ?_, ?_, ?_⟩
  · intro n hmem
    exact of_decide_eq_true (List.mem_filter.mp hmem).2
  · intro v hmem
    exact of_decide_eq_true (List.mem_filter.mp hmem).2
  · intro p hmem
    exact of_decide_eq_true (List.mem_filter.mp hmem).2
  · unfold listPayments
    have hnil : (db.payments.filter (fun p => p.neighbor_id ≠ nid)).filter
        (fun p => p.neighbor_id = nid) = [] := by
      rw [List.filter_eq_nil_iff]
      intro p hmem hdec
      exact absurd (of_decide_eq_true hdec)
        (of_decide_eq_true (List.mem_filter.mp hmem).2)
    simp only [hnil, List.mergeSort_nil]
  · have hgone : neighborExists { db with
        neighbors := db.neighbors.filter (fun n => n.id ≠ nid),
        vehicles := db.vehicles.filter (fun v => v.neighbor_id ≠ nid),
        payments := db.payments.filter (fun p => p.neighbor_id ≠ nid) } nid = false := by
      rw [Bool.eq_false_iff]
      intro hx
      obtain ⟨n, hmem, hid⟩ := List.any_eq_true.mp hx
      exact absurd (of_decide_eq_true hid)
        (of_decide_eq_true (List.mem_filter.mp hmem).2)
    unfold deleteNeighbor
    rw [hgone]
    rfl

/-- Witness for C2 on a neighbor owning one vehicle and one payment. -/
theorem deleteNeighbor_cascades_witness :
    ∃ db', deleteNeighbor db1 1 = (db', Except.ok ()) ∧
      (∀ n ∈ db'.neighbors, n.id ≠ 1) ∧
      (∀ v ∈ db'.vehicles, v.neighbor_id ≠ 1) ∧
      (∀ p ∈ db'.payments, p.neighbor_id ≠ 1) ∧
      listPayments db' 1 = [] ∧
      deleteNeighbor db' 1 = (db', Except.error AppErr.notFound) :=
  deleteNeighbor_cascades db1 1 (by decide)

/-! ### C6 — vehicle deletion is ownership-scoped -/

/-- C6: with distinct stored neighbors `a` and `b` and a vehicle owned by `b`
(vehicle primary keys being unique), `deleteVehicle a.id v.id` reports
`NotFound` and leaves the state — in particular every vehicle — unchanged. -/
theorem deleteVehicle_ownership_scoped
    (db : DB) (a b : Neighbor) (v : Vehicle)
    (ha : a ∈ db.neighbors) (_hb : b ∈ db.neighbors) (hv : v ∈ db.vehicles)
    (hown : v.neighbor_id = b.id) (hne : a.id ≠ b.id)
    (hids : (db.vehicles.map (fun w => w.id)).Nodup) :
    deleteVehicle db a.id v.id = (db, Except.error AppErr.notFound) := by
  have hex : neighborExists db a.id = true :=
    List.any_eq_true.mpr ⟨a, ha, by simp⟩
  have hfind : db.vehicles.find? (fun w => w.id = v.id && w.neighbor_id = a.id) = none := by
    rw [List.find?_eq_none]
    intro w hw hpred
    obtain ⟨hid, hnid⟩ := Bool.and_eq_true_iff.mp hpred
    have hwv : w = v :=
      List.inj_on_of_nodup_map hids hw hv (of_decide_eq_true hid)
    rw [hwv, hown] at hnid
    exact hne (of_decide_eq_true hnid).symm
  unfold deleteVehicle
  rw [hex, hfind]
  rfl

/-- Witness for C6: neighbor 1 cannot delete neighbor 2's vehicle. -/
theorem deleteVehicle_ownership_scoped_witness :
    deleteVehicle db2 n1.id v2.id = (db2, Except.error AppErr.notFound) :=
  deleteVehicle_ownership_scoped db2 n1 n2 v2 (by decide) (by decide) (by decide)
    (by decide) (by decide) (by decide)

/-! ### C8 — payment deletion and best-effort file removal -/

/-- C8: for a stored payment row, deletion removes the row; when a screenshot
is referenced the backing-file removal is attempted first — an already-absent
file is swallowed (the row is still deleted and success reported), while any
other file-removal failure aborts the operation with the row still in place. -/
theorem deletePayment_file_handling
    (db : DB) (nid pid : Nat) (p : Payment)
    (hp : db.payments.find? (fun q => q.id = pid && q.neighbor_id = nid) = some p) :
    (p.screenshot_path = none → ∀ osr,
      deletePayment db nid pid osr =
        ({ db with payments := db.payments.filter (fun q => q.id ≠ pid) }, Except.ok ())) ∧
    (∀ name, p.screenshot_path = some name →
      deletePayment db nid pid OsRemove.missing =
        ({ db with payments := db.payments.filter (fun q => q.id ≠ pid) }, Except.ok ()) ∧
      deletePayment db nid pid OsRemove.removed =
        ({ db with payments := db.payments.filter (fun q => q.id ≠ pid),
                   files := db.files.filter (fun m => m ≠ name) }, Except.ok ()) ∧
      deletePayment db nid pid OsRemove.failed =
        (db, Except.error AppErr.storageFailure)) := by
  constructor
  · intro hnone osr
    unfold deletePayment
    simp only [hp, hnone]
  · intro name hsome
    refine ⟨?_, ?_, ?_⟩ <;> (unfold deletePayment; simp only [hp, hsome])

/-- Witness for C8: deleting a payment whose backing file is already absent
still removes the row and succeeds. -/
theorem deletePayment_file_handling_witness :
    deletePayment db3 1 2 OsRemove.missing =
      ({ db3 with payments := db3.payments.filter (fun q => q.id ≠ 2) }, Except.ok ()) ∧
    deletePayment db3 1 2 OsRemove.failed = (db3, Except.error AppErr.storageFailure) :=
  ⟨((deletePayment_file_handling db3 1 2 p2 (by decide)).2 "x.png" rfl).1,
   ((deletePayment_file_handling db3 1 2 p2 (by decide)).2 "x.png" rfl).2.2⟩

/-! ### C10 — deposit-account label normalization -/

/-- C10: every successfully created payment stores the deposit-account label
as `none` when the raw field trims to empty, and as the trimmed value
otherwise (never an empty string). -/
theorem createPayment_deposit_normalized
    (db : DB) (nid : Nat) (m a d : String) (file : Option Upload) (now : DateTime)
    (hok : (createPayment db nid m a d file now).2 = Except.ok ()) :
    ∃ p, (createPayment db nid m a d file now).1.payments = db.payments ++ [p] ∧
      p.deposit_account = (if pyStrip d = "" then none else some (pyStrip d)) := by
  unfold createPayment at hok ⊢
  by_cases hn : neighborExists db nid = true
  · rw [hn] at hok ⊢
    simp only [eq_self_iff_true, if_true] at hok ⊢
    cases hpf : pyFloat (pyStrip a) with
    | none =>
      simp only [hpf] at hok
      exact absurd hok (by simp)
    | some amount =>
      simp only [hpf] at hok ⊢
      by_cases hm : pyStrip m = ""
      · simp only [if_pos hm] at hok
        exact absurd hok (by simp)
      · simp only [if_neg hm] at hok ⊢
        cases file with
        | none => exact ⟨_, rfl, rfl⟩
        | some f =>
          by_cases hf : f.filename = ""
          · simp only [if_pos hf] at hok ⊢
            exact ⟨_, rfl, rfl⟩
          · simp only [if_neg hf] at hok ⊢
            by_cases hext : allowed_file f.filename = true
            · simp only [if_pos hext] at hok ⊢
              exact ⟨_, rfl, rfl⟩
            · simp only [if_neg hext] at hok
              exact absurd hok (by simp)
  · rw [Bool.not_eq_true] at hn
    rw [hn] at hok
    exact absurd hok (by simp)

/-- Witness for C10: an all-whitespace deposit field is stored as `none`. -/
theorem createPayment_deposit_normalized_witness :
    ∃ p, (createPayment db0 1 "cash" "12.50" "   " none dt0).1.payments =
        db0.payments ++ [p] ∧
      p.deposit_account = (if pyStrip "   " = "" then none else some (pyStrip "   ")) :=
  createPayment_deposit_normalized db0 1 "cash" "12.50" "   " none dt0 (by decide)

/-! ### C3 — validation of method and amount -/

/-- C3 counterexample: at method `"cash"` and amount text `"inf"` the claim
"fails with `ValidationError` exactly when the method trims to empty OR the
raw amount string cannot be parsed as a finite number" is false: `"inf"` does
not parse as a finite number (Python's `float` yields an infinity), yet the
code does not fail — it creates the payment row. -/
theorem createPayment_validation_finite_refuted :
    ¬ (((createPayment db0 1 "cash" "inf" "" none dt0).2 =
          Except.error AppErr.validationError) ↔
        (pyStrip "cash" = "" ∨ finiteParse (pyStrip "inf") = false)) := by
  decide

/-- C3 amended: payment creation (for an existing neighbor) fails with
`ValidationError` exactly when the method trims to empty OR the raw amount
string is not accepted by Python's `float` at all — non-finite results such as
`"inf"`/`"nan"` are accepted and pass validation; whenever validation fails
the state is returned unchanged, so no `Payment` row is created. -/
theorem createPayment_validation_amended
    (db : DB) (nid : Nat) (m a d : String) (file : Option Upload) (now : DateTime)
    (hn : neighborExists db nid = true) :
    ((createPayment db nid m a d file now).2 = Except.error AppErr.validationError ↔
      (pyStrip m = "" ∨ pyFloat (pyStrip a) = none)) ∧
    ((pyStrip m = "" ∨ pyFloat (pyStrip a) = none) →
      createPayment db nid m a d file now = (db, Except.error AppErr.validationError)) := by
  unfold createPayment
  rw [hn]
  simp only [eq_self_iff_true, if_true]
  cases hpf : pyFloat (pyStrip a) with
  | none =>
    simp
  | some amount =>
    by_cases hm : pyStrip m = ""
    · simp [hm]
    · simp only [if_neg hm]
      constructor
      · constructor
        · intro hbr
          exfalso
          cases file with
          | none => simp at hbr
          | some f =>
            by_cases hf : f.filename = ""
            · simp only [if_pos hf] at hbr
              simp at hbr
            · simp only [if_neg hf] at hbr
              by_cases hext : allowed_file f.filename = true
              · simp only [if_pos hext] at hbr
                simp at hbr
              · simp only [if_neg hext] at hbr
                simp at hbr
        · intro hor
          rcases hor with hm0 | ha0
          · exact absurd hm0 hm
          · exact Option.noConfusion ha0
      · intro hor
        rcases hor with hm0 | ha0
        · exact absurd hm0 hm
        · exact Option.noConfusion ha0

/-- Witness for the amended C3: an empty method and an unparseable amount each
fail with `ValidationError` and leave the state unchanged, while method
`"cash"` with amount `"12.50"` does not fail validation. -/
theorem createPayment_validation_amended_witness :
    createPayment db0 1 " " "12.50" "" none dt0 =
        (db0, Except.error AppErr.validationError) ∧
    createPayment db0 1 "cash" "12,50" "" none dt0 =
        (db0, Except.error AppErr.validationError) ∧
    ¬ (createPayment db0 1 "cash" "12.50" "" none dt0).2 =
        Except.error AppErr.validationError :=
  ⟨(createPayment_validation_amended db0 1 " " "12.50" "" none dt0 (by decide)).2
      (Or.inl (by decide)),
   (createPayment_validation_amended db0 1 "cash" "12,50" "" none dt0 (by decide)).2
      (Or.inr (by decide)),
   fun hc =>
     by
      have h1 := (createPayment_validation_amended db0 1 "cash" "12.50" "" none dt0
        (by decide)).1.mp hc
      revert h1
      decide⟩

/-! ### LIKE-pattern lemmas -/

/-- Unfolding of `likeMatch` on a leading `%`: the rest of the pattern must
match some suffix of the text. -/
theorem likeMatch_pct_step (p t : List Char) :
    likeMatch ('%' :: p) t = t.tails.any (fun s => likeMatch p s) := by
  rw [likeMatch.eq_def]
  simp

/-- Unfolding of `likeMatch` on a leading literal character against the empty
text. -/
theorem likeMatch_lit_nil (c : Char) (p : List Char) (hc : c ≠ '%') :
    likeMatch (c :: p) [] = false := by
  rw [likeMatch.eq_def]
  simp [hc]

/-- Unfolding of `likeMatch` on a leading literal character against a
nonempty text: compare up to ASCII case and continue. -/
theorem likeMatch_lit_cons (c : Char) (p : List Char) (d : Char) (t : List Char)
    (hc1 : c ≠ '%') (hc2 : c ≠ '_') :
    likeMatch (c :: p) (d :: t) = (decide (c.toLower = d.toLower) && likeMatch p t) := by
  rw [likeMatch.eq_def]
  simp [hc1, hc2]

/-- A lone `%` pattern matches every text. -/
theorem likeMatch_pct (t : List Char) : likeMatch ['%'] t = true := by
  rw [likeMatch_pct_step, List.any_eq_true]
  exact ⟨[], by simp [List.mem_tails], by simp [likeMatch]⟩

/-- Prefixing a pattern with `%` preserves any existing match (the `%` can
match the empty sequence). -/
theorem likeMatch_pct_cons (p t : List Char) (h : likeMatch p t = true) :
    likeMatch ('%' :: p) t = true := by
  rw [likeMatch_pct_step, List.any_eq_true]
  exact ⟨t, by simp [List.mem_tails], h⟩

/-- The pattern `%%%` (query `%`) matches every text. -/
theorem likeMatch_pct3 (t : List Char) : likeMatch ['%', '%', '%'] t = true :=
  likeMatch_pct_cons _ _ (likeMatch_pct_cons _ _ (likeMatch_pct t))

/-- The pattern `%_%` (query `_`) matches exactly the nonempty texts. -/
theorem likeMatch_pct_us (t : List Char) :
    likeMatch ['%', '_', '%'] t = true ↔ t ≠ [] := by
  cases t with
  | nil => decide
  | cons c tt =>
    constructor
    · intro _
      simp
    · intro _
      have h2 : likeMatch ['_', '%'] (c :: tt) = true := by
        rw [likeMatch.eq_def]
        simp [likeMatch_pct tt]
      exact likeMatch_pct_cons _ _ h2

/-! ### C9 — the query is a raw LIKE pattern, so wildcards are wildcards -/

/-- C9: the (stripped, nonempty) query is interpolated into the `LIKE` pattern
unescaped, so `%` and `_` act as wildcards rather than literal characters: the
query `%` returns every stored neighbor, and the query `_` returns exactly the
neighbors with at least one nonempty field (it matches any single
character). -/
theorem searchNeighbors_wildcards (db : DB) :
    (∀ n, n ∈ searchNeighbors db "%" ↔ n ∈ db.neighbors) ∧
    (∀ n, n ∈ searchNeighbors db "_" ↔
      n ∈ db.neighbors ∧
        (n.first_name ≠ "" ∨ n.last_name ≠ "" ∨ n.address ≠ "")) := by
  have hdata : ∀ s : String, s.data = [] ↔ s = "" := by
    intro s
    constructor
    · intro h
      apply String.ext
      rw [h]
    · intro h
      rw [h]
  constructor
  · intro n
    unfold searchNeighbors
    rw [if_neg (by decide : ¬pyStrip "%" = "")]
    rw [List.mem_mergeSort, List.mem_filter]
    have hpat : likePattern (pyStrip "%") = ['%', '%', '%'] := by decide
    simp [neighborMatches, hpat, likeMatch_pct3]
  · intro n
    unfold searchNeighbors
    rw [if_neg (by decide : ¬pyStrip "_" = "")]
    rw [List.mem_mergeSort, List.mem_filter]
    have hpat : likePattern (pyStrip "_") = ['%', '_', '%'] := by decide
    simp only [neighborMatches, hpat, Bool.or_eq_true, likeMatch_pct_us, ne_eq, hdata]
    tauto

/-! ### C5 — payment listing order and stability -/

/-- Transitivity of the descending-timestamp comparator. -/
theorem payLe_trans : ∀ a b c : Payment, payLe a b = true → payLe b c = true →
    payLe a c = true := by
  intro a b c hab hbc
  simp only [payLe, decide_eq_true_eq] at hab hbc ⊢
  omega

/-- Totality of the descending-timestamp comparator. -/
theorem payLe_total : ∀ a b : Payment, (payLe a b || payLe b a) = true := by
  intro a b
  simp only [payLe, Bool.or_eq_true, decide_eq_true_eq]
  omega

/-- C5: the payment listing for a neighbor consists of exactly that neighbor's
payment rows, is ordered by creation timestamp descending, and is stable under
equal timestamps: for every timestamp the rows carrying it appear in the same
order as in the table (insertion order). -/
theorem listPayments_ordered_stable (db : DB) (nid : Nat) :
    (listPayments db nid).Perm (db.payments.filter (fun p => p.neighbor_id = nid)) ∧
    (listPayments db nid).Pairwise (fun x y => y.created_at ≤ x.created_at) ∧
    (∀ ts, (listPayments db nid).filter (fun p => p.created_at = ts) =
      (db.payments.filter (fun p => p.neighbor_id = nid)).filter
        (fun p => p.created_at = ts)) := by
  unfold listPayments
  refine ⟨List.mergeSort_perm _ _, ?_, ?_⟩
  · exact (List.sorted_mergeSort payLe_trans payLe_total
      (db.payments.filter (fun p => p.neighbor_id = nid))).imp of_decide_eq_true
  · intro ts
    have hcl : List.Sublist
        ((db.payments.filter (fun p => p.neighbor_id = nid)).filter
          (fun p => p.created_at = ts))
        (db.payments.filter (fun p => p.neighbor_id = nid)) :=
      List.filter_sublist _
    have hpw : ((db.payments.filter (fun p => p.neighbor_id = nid)).filter
        (fun p => p.created_at = ts)).Pairwise (fun a b => payLe a b = true) := by
      apply List.pairwise_of_forall_mem_list
      intro a hma b hmb
      have ha := of_decide_eq_true (List.mem_filter.mp hma).2
      have hb := of_decide_eq_true (List.mem_filter.mp hmb).2
      simp only [payLe, decide_eq_true_eq]
      omega
    have hsub := List.sublist_mergeSort payLe_trans payLe_total hpw hcl
    have heq : ((db.payments.filter (fun p => p.neighbor_id = nid)).filter
        (fun p => p.created_at = ts)).filter (fun p => p.created_at = ts) =
        ((db.payments.filter (fun p => p.neighbor_id = nid)).filter
          (fun p => p.created_at = ts)) :=
      List.filter_eq_self.mpr (fun a ha => (List.mem_filter.mp ha).2)
    have hfil := hsub.filter (fun p => p.created_at = ts)
    rw [heq] at hfil
    have hperm : (((db.payments.filter (fun p => p.neighbor_id = nid)).mergeSort
        payLe).filter (fun p => p.created_at = ts)).Perm
        ((db.payments.filter (fun p => p.neighbor_id = nid)).filter
          (fun p => p.created_at = ts)) :=
      (List.mergeSort_perm _ payLe).filter _
    exact (hfil.eq_of_length hperm.length_eq.symm).symm

/-! ### C4 — search semantics -/

/-- Prefix test against the empty text: only the empty needle succeeds. -/
theorem begins_nil (n : List Char) : begins n [] = n.isEmpty := by
  cases n <;> rfl

/-- The substring test checks the prefix test on every suffix. -/
theorem subLit_eq_any_tails (n h : List Char) :
    subLit n h = h.tails.any (fun s => begins n s) := by
  induction h with
  | nil => simp [subLit, begins_nil]
  | cons hd t ih => simp [subLit, List.tails_cons, ih]

/-- For a wildcard-free pattern, `pattern ++ %` tests a case-insensitive
prefix. -/
theorem likeMatch_lit_pct (p : List Char) (hw : ∀ c ∈ p, c ≠ '%' ∧ c ≠ '_') :
    ∀ t, likeMatch (p ++ ['%']) t = begins (p.map Char.toLower) (t.map Char.toLower) := by
  induction p with
  | nil =>
    intro t
    rw [List.nil_append, likeMatch_pct t]
    rfl
  | cons c p' ih =>
    intro t
    obtain ⟨hc1, hc2⟩ := hw c (List.mem_cons_self c p')
    cases t with
    | nil =>
      rw [List.cons_append, likeMatch_lit_nil _ _ hc1]
      rfl
    | cons d t' =>
      rw [List.cons_append, likeMatch_lit_cons c _ d t' hc1 hc2]
      have ih' := ih (fun x hx => hw x (List.mem_cons_of_mem c hx)) t'
      simp only [List.map_cons]
      show (decide (c.toLower = d.toLower) && likeMatch (p' ++ ['%']) t') =
        (decide (c.toLower = d.toLower) && begins (p'.map Char.toLower) (t'.map Char.toLower))
      rw [ih']

/-- For a wildcard-free query, the pattern `%query%` is exactly the
case-insensitive substring test. -/
theorem likeMatch_free (q t : List Char) (hw : ∀ c ∈ q, c ≠ '%' ∧ c ≠ '_') :
    likeMatch ('%' :: (q ++ ['%'])) t = subLit (q.map Char.toLower) (t.map Char.toLower) := by
  rw [likeMatch_pct_step, subLit_eq_any_tails, List.map_tails, List.any_map]
  congr 1
  funext s
  show likeMatch (q ++ ['%']) s = begins (q.map Char.toLower) (s.map Char.toLower)
  exact likeMatch_lit_pct q hw s

/-- For a wildcard-free query, the three `ilike` clauses coincide with the
spec's case-insensitive substring match on the three fields. -/
theorem neighborMatches_free (q : String) (n : Neighbor) (hw : noWild q = true) :
    neighborMatches q n =
      (ciSubstr q n.first_name || ciSubstr q n.last_name || ciSubstr q n.address) := by
  have hw' : ∀ c ∈ q.data, c ≠ '%' ∧ c ≠ '_' := by
    intro c hc
    have h2 := List.all_eq_true.mp hw c hc
    simp only [Bool.and_eq_true, decide_eq_true_eq] at h2
    exact h2
  unfold neighborMatches ciSubstr likePattern
  rw [likeMatch_free _ _ hw', likeMatch_free _ _ hw', likeMatch_free _ _ hw']

/-- C4 counterexample: the code does not treat the query text as a literal
substring.  The query `%` returns the stored neighbor although none of the
neighbor's fields contains `%`, and the query `" boe "` returns the neighbor
although no field contains the text `" boe "` (matching uses the trimmed
query).  Both contradict the claim's "returns the neighbors whose first name
OR last name OR address contains the query as a case-insensitive
substring". -/
theorem searchNeighbors_substring_refuted :
    (searchNeighbors db0 "%" = [n1] ∧
      (ciSubstr "%" n1.first_name || ciSubstr "%" n1.last_name ||
        ciSubstr "%" n1.address) = false) ∧
    (searchNeighbors db0 " boe " = [n1] ∧
      (ciSubstr " boe " n1.first_name || ciSubstr " boe " n1.last_name ||
        ciSubstr " boe " n1.address) = false) := by
  refine ⟨⟨?_, by decide⟩, ⟨?_, by decide⟩⟩
  · unfold searchNeighbors
    rw [if_neg (by decide : ¬pyStrip "%" = "")]
    rw [show db0.neighbors.filter (neighborMatches (pyStrip "%")) = [n1] by decide]
    exact List.mergeSort_singleton n1
  · unfold searchNeighbors
    rw [if_neg (by decide : ¬pyStrip " boe " = "")]
    rw [show db0.neighbors.filter (neighborMatches (pyStrip " boe ")) = [n1] by decide]
    exact List.mergeSort_singleton n1

/-- C4 amended: an empty or all-whitespace query returns the empty result set;
a query whose trimmed text is nonempty and contains no `LIKE` wildcard (`%`,
`_`) returns exactly the neighbors one of whose three fields contains the
*trimmed* query as a case-insensitive substring, sorted by last name
ascending. -/
theorem searchNeighbors_amended (db : DB) (q : String) :
    (pyStrip q = "" → searchNeighbors db q = []) ∧
    (pyStrip q ≠ "" → noWild (pyStrip q) = true →
      (searchNeighbors db q).Perm (db.neighbors.filter (fun n =>
        ciSubstr (pyStrip q) n.first_name || ciSubstr (pyStrip q) n.last_name ||
          ciSubstr (pyStrip q) n.address)) ∧
      (searchNeighbors db q).Pairwise (fun x y => x.last_name ≤ y.last_name)) := by
  constructor
  · intro hq
    unfold searchNeighbors
    rw [if_pos hq]
  · intro hq hw
    have heq : neighborMatches (pyStrip q) = (fun n =>
        ciSubstr (pyStrip q) n.first_name || ciSubstr (pyStrip q) n.last_name ||
          ciSubstr (pyStrip q) n.address) :=
      funext (fun n => neighborMatches_free (pyStrip q) n hw)
    unfold searchNeighbors
    rw [if_neg hq]
    constructor
    · rw [heq]
      exact List.mergeSort_perm _ _
    · have htrans : ∀ a b c : Neighbor, neighborLe a b = true → neighborLe b c = true →
          neighborLe a c = true := by
        intro a b c hab hbc
        simp only [neighborLe, decide_eq_true_eq] at hab hbc ⊢
        exact le_trans hab hbc
      have htotal : ∀ a b : Neighbor, (neighborLe a b || neighborLe b a) = true := by
        intro a b
        simp only [neighborLe, Bool.or_eq_true, decide_eq_true_eq]
        exact le_total _ _
      exact (List.sorted_mergeSort htrans htotal _).imp of_decide_eq_true

/-- Witness for the amended C4: a whitespace query returns nothing, and the
query `"boe"` (wildcard-free) returns exactly the neighbor whose last name is
`"Boe"`, case-insensitively. -/
theorem searchNeighbors_amended_witness :
    searchNeighbors db2 "  " = [] ∧
    ((searchNeighbors db2 "boe").Perm (db2.neighbors.filter (fun n =>
        ciSubstr (pyStrip "boe") n.first_name || ciSubstr (pyStrip "boe") n.last_name ||
          ciSubstr (pyStrip "boe") n.address)) ∧
      (searchNeighbors db2 "boe").Pairwise (fun x y => x.last_name ≤ y.last_name)) :=
  ⟨(searchNeighbors_amended db2 "  ").1 (by decide),
   (searchNeighbors_amended db2 "boe").2 (by decide) (by decide)⟩

/-! ### C7 — stored-name structure.  Character-level lemmas. -/

/-- Comparison of `UInt32` is comparison of the underlying numerals. -/
theorem uint32_le_iff {a b : UInt32} : a ≤ b ↔ a.toNat ≤ b.toNat := by
  rw [UInt32.le_def]
  rfl

/-- A character whose lowercase form is a lowercase letter is a letter. -/
theorem isAlpha_of_toLower_isLower (c : Char) (h : (c.toLower).isLower = true) :
    c.isAlpha = true := by
  unfold Char.toLower at h
  simp only [] at h
  by_cases hcase : c.toNat ≥ 65 ∧ c.toNat ≤ 90
  · simp only [Char.isAlpha, Char.isUpper, Bool.or_eq_true, Bool.and_eq_true,
      decide_eq_true_eq]
    left
    constructor
    · show (65 : UInt32) ≤ c.val
      rw [uint32_le_iff]
      exact hcase.1
    · show c.val ≤ (90 : UInt32)
      rw [uint32_le_iff]
      exact hcase.2
  · rw [if_neg hcase] at h
    simp [Char.isAlpha, h]

/-- Letters are not Python whitespace. -/
theorem isPySpace_eq_false_of_alpha (c : Char) (h : c.isAlpha = true) :
    isPySpace c = false := by
  rw [Bool.eq_false_iff]
  intro hs
  simp only [isPySpace, Bool.or_eq_true, decide_eq_true_eq] at hs
  rcases hs with ((((h1 | h1) | h1) | h1) | h1) | h1 <;>
    (subst h1; exact absurd h (by decide))

/-- Letters are kept by the `secure_filename` regex. -/
theorem goodChar_of_alpha (c : Char) (h : c.isAlpha = true) : goodChar c = true := by
  simp [goodChar, h]

/-- Letters are not stripped from the ends by `secure_filename`. -/
theorem isStripC_eq_false_of_alpha (c : Char) (h : c.isAlpha = true) :
    isStripC c = false := by
  rw [Bool.eq_false_iff]
  intro hs
  simp only [isStripC, Bool.or_eq_true, decide_eq_true_eq] at hs
  rcases hs with h1 | h1 <;> (subst h1; exact absurd h (by decide))

/-- Letters are not the path separator. -/
theorem ne_slash_of_alpha (c : Char) (h : c.isAlpha = true) : ¬c = '/' := by
  intro h1
  subst h1
  exact absurd h (by decide)

/-- Letters are not the dot. -/
theorem ne_dot_of_alpha (c : Char) (h : c.isAlpha = true) : ¬c = '.' := by
  intro h1
  subst h1
  exact absurd h (by decide)

/-- Every character of an extension from the allow-set is a letter. -/
theorem ext_chars_alpha (e : List Char)
    (h : ALLOWED_EXTENSIONS.contains (e.map Char.toLower) = true) :
    ∀ c ∈ e, c.isAlpha = true := by
  intro c hc
  have hmem : c.toLower ∈ e.map Char.toLower := List.mem_map_of_mem _ hc
  have hmem2 : e.map Char.toLower ∈ ALLOWED_EXTENSIONS := by
    simpa using h
  have hAE : ALLOWED_EXTENSIONS =
      [['p', 'n', 'g'], ['j', 'p', 'g'], ['j', 'p', 'e', 'g'], ['g', 'i', 'f'],
        ['p', 'd', 'f']] := by
    decide
  rw [hAE] at hmem2
  simp only [List.mem_cons, List.not_mem_nil, or_false] at hmem2
  apply isAlpha_of_toLower_isLower
  revert hmem
  generalize c.toLower = x
  intro hmem
  rcases hmem2 with h5 | h5 | h5 | h5 | h5 <;>
    (rw [h5] at hmem; fin_cases hmem <;> decide)

/-- Dropping up to the first `.` of a list that contains one exposes that
dot. -/
theorem dropToDot (l : List Char) (h : '.' ∈ l) :
    ∃ tl, l.dropWhile (fun c => c ≠ '.') = '.' :: tl := by
  induction l with
  | nil => cases h
  | cons c rest ih =>
    by_cases hc : c = '.'
    · subst hc
      refine ⟨rest, ?_⟩
      rw [List.dropWhile_cons]
      simp
    · have h2 : '.' ∈ rest := by
        cases h with
        | head => exact absurd rfl hc
        | tail _ hmem => exact hmem
      obtain ⟨tl, htl⟩ := ih h2
      refine ⟨tl, ?_⟩
      simpa [List.dropWhile_cons, hc] using htl

/-- Take-while over an append whose left part wholly satisfies the predicate
and whose right part starts with a failing element. -/
theorem takeWhile_all_append (p : Char → Bool) (a : List Char) (b0 : Char)
    (b : List Char) (ha : ∀ c ∈ a, p c = true) (hb : p b0 = false) :
    (a ++ b0 :: b).takeWhile p = a := by
  induction a with
  | nil =>
    simp [List.takeWhile_cons, hb]
  | cons c a' ih =>
    have hc := ha c (List.mem_cons_self c a')
    simp only [List.cons_append, List.takeWhile_cons, hc, if_true]
    rw [ih (fun x hx => ha x (List.mem_cons_of_mem c hx))]

/-- The text after the last dot of `x ++ "." ++ e` is `e` whenever `e` itself
contains no dot. -/
theorem afterLastDot_append (x e : List Char) (he : ∀ c ∈ e, ¬c = '.') :
    afterLastDot (x ++ '.' :: e) = e := by
  unfold afterLastDot
  have hrev : (x ++ '.' :: e).reverse = e.reverse ++ '.' :: x.reverse := by
    rw [List.reverse_append, List.reverse_cons, List.append_assoc]
    simp
  rw [hrev]
  rw [takeWhile_all_append _ _ _ _ ?ha (by decide)]
  · exact List.reverse_reverse e
  case ha =>
    intro c hc
    have := he c (List.mem_reverse.mp hc)
    simp [this]

/-- Decomposition of a filename at its last dot. -/
theorem ext_decomp (l : List Char) (h : '.' ∈ l) :
    l = beforeLastDot l ++ '.' :: afterLastDot l ∧
      ∀ c ∈ afterLastDot l, ¬c = '.' := by
  have hrev : '.' ∈ l.reverse := List.mem_reverse.mpr h
  obtain ⟨tl, htl⟩ := dropToDot l.reverse hrev
  have hafter : ∀ c ∈ afterLastDot l, ¬c = '.' := by
    intro c hc
    unfold afterLastDot at hc
    have hmem := List.mem_reverse.mp hc
    have := List.mem_takeWhile_imp hmem
    exact of_decide_eq_true this
  refine ⟨?_, hafter⟩
  have hsplit : l.reverse.takeWhile (fun c => c ≠ '.') ++
      l.reverse.dropWhile (fun c => c ≠ '.') = l.reverse :=
    List.takeWhile_append_dropWhile _ _
  rw [htl] at hsplit
  have hh := congrArg List.reverse hsplit
  rw [List.reverse_reverse, List.reverse_append, List.reverse_cons] at hh
  unfold beforeLastDot afterLastDot
  rw [htl]
  simp only [List.drop_succ_cons, List.drop_zero]
  rw [← hh]
  simp
  rw [takeWhile_all_append _ _ _ _ (fun c hc => List.mem_takeWhile_imp hc) (by decide)]

/-- Python `split()` of a nonempty whitespace-free list extends the current
chunk with the whole list. -/
theorem splitWsAux_clean (b : List Char) (hb : b ≠ [])
    (hclean : ∀ c ∈ b, isPySpace c = false) :
    ∀ acc, splitWsAux b acc = [acc.reverse ++ b] := by
  induction b with
  | nil => exact absurd rfl hb
  | cons x b' ih =>
    intro acc
    have hx := hclean x (List.mem_cons_self x b')
    cases b' with
    | nil =>
      simp [splitWsAux, hx]
    | cons y b'' =>
      have hstep : splitWsAux (x :: y :: b'') acc = splitWsAux (y :: b'') (x :: acc) := by
        simp [splitWsAux, hx]
      rw [hstep, ih (by simp) (fun c hc => hclean c (List.mem_cons_of_mem x hc)) (x :: acc)]
      simp

/-- Joining a chunk onto a nonempty tail inserts one underscore. -/
theorem joinU_cons_ne (x : List Char) (L : List (List Char)) (hL : L ≠ []) :
    joinU (x :: L) = x ++ '_' :: joinU L := by
  cases L with
  | nil => exact absurd rfl hL
  | cons y L' => rfl

/-- Behaviour of split-then-join on a list ending in a clean (nonempty,
whitespace-free) suffix `b`: the result is `u ++ b` where `u` consists of
characters of the prefix (and of the pending chunk) plus inserted
underscores, and every non-whitespace character of the prefix survives
into `u`. -/
theorem splitJoin_decomp (b : List Char) (hb : b ≠ [])
    (hclean : ∀ c ∈ b, isPySpace c = false) :
    ∀ (w acc : List Char), (∀ c ∈ acc, isPySpace c = false) →
      ∃ u, joinU (splitWsAux (w ++ b) acc) = u ++ b ∧
        (∀ k ∈ u, k ∈ w ∨ k ∈ acc ∨ k = '_') ∧
        (∀ k, isPySpace k = false → (k ∈ w ∨ k ∈ acc) → k ∈ u) := by
  intro w
  induction w with
  | nil =>
    intro acc hacc
    rw [List.nil_append, splitWsAux_clean b hb hclean acc]
    refine ⟨acc.reverse, rfl, ?_, ?_⟩
    · intro k hk
      exact Or.inr (Or.inl (List.mem_reverse.mp hk))
    · intro k _ hor
      rcases hor with hk | hk
      · cases hk
      · exact List.mem_reverse.mpr hk
  | cons c w' ih =>
    intro acc hacc
    rw [List.cons_append]
    by_cases hc : isPySpace c = true
    · cases acc with
      | nil =>
        have hstep : splitWsAux (c :: (w' ++ b)) ([] : List Char) =
            splitWsAux (w' ++ b) [] := by
          simp [splitWsAux, hc]
        rw [hstep]
        obtain ⟨u, hu, h1, h2⟩ := ih [] (by intro x hx; cases hx)
        refine ⟨u, hu, ?_, ?_⟩
        · intro k hk
          rcases h1 k hk with hk2 | hk2 | hk2
          · exact Or.inl (List.mem_cons_of_mem c hk2)
          · cases hk2
          · exact Or.inr (Or.inr hk2)
        · intro k hkns hor
          rcases hor with hk2 | hk2
          · cases hk2 with
            | head => exact absurd hc (by simp [hkns])
            | tail _ hmem => exact h2 k hkns (Or.inl hmem)
          · cases hk2
      | cons a acc' =>
        have hstep : splitWsAux (c :: (w' ++ b)) (a :: acc') =
            (a :: acc').reverse :: splitWsAux (w' ++ b) [] := by
          simp [splitWsAux, hc]
        rw [hstep]
        obtain ⟨u, hu, h1, h2⟩ := ih [] (by intro x hx; cases hx)
        have hLne : splitWsAux (w' ++ b) [] ≠ [] := by
          intro hL
          rw [hL] at hu
          have : ([] : List Char) = u ++ b := hu
          rcases List.append_eq_nil.mp this.symm with ⟨-, hbnil⟩
          exact hb hbnil
        rw [joinU_cons_ne _ _ hLne, hu]
        refine ⟨(a :: acc').reverse ++ '_' :: u, by simp, ?_, ?_⟩
        · intro k hk
          rcases List.mem_append.mp hk with hk2 | hk2
          · exact Or.inr (Or.inl (List.mem_reverse.mp hk2))
          · cases hk2 with
            | head => exact Or.inr (Or.inr rfl)
            | tail _ hmem =>
              rcases h1 k hmem with hk3 | hk3 | hk3
              · exact Or.inl (List.mem_cons_of_mem c hk3)
              · cases hk3
              · exact Or.inr (Or.inr hk3)
        · intro k hkns hor
          rcases hor with hk2 | hk2
          · cases hk2 with
            | head => exact absurd hc (by simp [hkns])
            | tail _ hmem =>
              exact List.mem_append.mpr (Or.inr
                (List.mem_cons_of_mem '_' (h2 k hkns (Or.inl hmem))))
          · exact List.mem_append.mpr (Or.inl (List.mem_reverse.mpr hk2))
    · have hcns : isPySpace c = false := Bool.eq_false_iff.mpr hc
      have hstep : splitWsAux (c :: (w' ++ b)) acc = splitWsAux (w' ++ b) (c :: acc) := by
        simp [splitWsAux, hcns]
      rw [hstep]
      obtain ⟨u, hu, h1, h2⟩ := ih (c :: acc) (by
        intro x hx
        cases hx with
        | head => exact hcns
        | tail _ hmem => exact hacc x hmem)
      refine ⟨u, hu, ?_, ?_⟩
      · intro k hk
        rcases h1 k hk with hk2 | hk2 | hk2
        · exact Or.inl (List.mem_cons_of_mem c hk2)
        · cases hk2 with
          | head => exact Or.inl (List.mem_cons_self c w')
          | tail _ hmem => exact Or.inr (Or.inl hmem)
        · exact Or.inr (Or.inr hk2)
      · intro k hkns hor
        rcases hor with hk2 | hk2
        · cases hk2 with
          | head => exact h2 c hkns (Or.inr (List.mem_cons_self c acc))
          | tail _ hmem => exact h2 k hkns (Or.inl hmem)
        · exact h2 k hkns (Or.inr (List.mem_cons_of_mem c hk2))

/-- Digits are not Python whitespace. -/
theorem isPySpace_eq_false_of_digit (c : Char) (h : c.isDigit = true) :
    isPySpace c = false := by
  rw [Bool.eq_false_iff]
  intro hs
  simp only [isPySpace, Bool.or_eq_true, decide_eq_true_eq] at hs
  rcases hs with ((((h1 | h1) | h1) | h1) | h1) | h1 <;>
    (subst h1; exact absurd h (by decide))

/-- Kept characters are not whitespace. -/
theorem keep_not_space (c : Char) (h : keepChar c = true) : isPySpace c = false := by
  simp only [keepChar, Bool.or_eq_true, decide_eq_true_eq] at h
  rcases h with (h1 | h1) | h1
  · exact isPySpace_eq_false_of_alpha c h1
  · exact isPySpace_eq_false_of_digit c h1
  · subst h1; decide

/-- Kept characters are not stripped from the ends. -/
theorem keep_not_strip (c : Char) (h : keepChar c = true) : isStripC c = false := by
  simp only [keepChar, Bool.or_eq_true, decide_eq_true_eq] at h
  rw [Bool.eq_false_iff]
  intro hs
  simp only [isStripC, Bool.or_eq_true, decide_eq_true_eq] at hs
  rcases h with (h1 | h1) | h1 <;> rcases hs with h2 | h2 <;>
    (subst h2; exact absurd h1 (by decide))

/-- Kept characters pass the regex filter. -/
theorem keep_good (c : Char) (h : keepChar c = true) : goodChar c = true := by
  simp only [keepChar, Bool.or_eq_true, decide_eq_true_eq] at h
  rcases h with (h1 | h1) | h1 <;> simp [goodChar, h1]

/-- Kept characters are not the path separator. -/
theorem keep_not_slash (c : Char) (h : keepChar c = true) : ¬c = '/' := by
  intro h1
  subst h1
  exact absurd h (by decide)

/-- Drop-while over an append whose left part contains a surviving element:
the drop stays within the left part. -/
theorem dropWhile_append_keep (p : Char → Bool) (a rest : List Char)
    (hex : ∃ k ∈ a, p k = false) :
    (a ++ rest).dropWhile p = a.dropWhile p ++ rest ∧ a.dropWhile p ≠ [] := by
  induction a with
  | nil =>
    obtain ⟨k, hk, _⟩ := hex
    cases hk
  | cons x a' ih =>
    by_cases hx : p x = true
    · have hex' : ∃ k ∈ a', p k = false := by
        obtain ⟨k, hk, hpk⟩ := hex
        cases hk with
        | head => rw [hx] at hpk; cases hpk
        | tail _ hmem => exact ⟨k, hmem, hpk⟩
      obtain ⟨h1, h2⟩ := ih hex'
      constructor
      · simpa [List.dropWhile_cons, hx] using h1
      · simpa [List.dropWhile_cons, hx] using h2
    · have hx' : p x = false := Bool.eq_false_iff.mpr hx
      constructor
      · simp [List.dropWhile_cons, hx']
      · simp [List.dropWhile_cons, hx']

/-- Key structural fact about `secure_filename`: on a filename `s ++ "." ++ e`
whose extension `e` is a nonempty run of letters and whose stem `s` contains
at least one letter, digit or hyphen, the sanitized name still ends in
`"." ++ e` (the extension survives sanitization verbatim). -/
theorem secureList_decomp (s e : List Char) (he : e ≠ [])
    (heA : ∀ c ∈ e, c.isAlpha = true)
    (hk : ∃ k ∈ s, keepChar k = true) :
    ∃ u, secureList (s ++ '.' :: e) = u ++ '.' :: e := by
  have hmap : (s ++ '.' :: e).map (fun c => if c = '/' then ' ' else c) =
      s.map (fun c => if c = '/' then ' ' else c) ++ '.' :: e := by
    rw [List.map_append, List.map_cons]
    have he2 : e.map (fun c => if c = '/' then ' ' else c) = e := by
      have : ∀ c ∈ e, (if c = '/' then ' ' else c) = c := by
        intro c hc
        rw [if_neg (ne_slash_of_alpha c (heA c hc))]
      rw [List.map_congr_left this]
      simp
    rw [he2]
    rfl
  have hclean : ∀ c ∈ ('.' :: e), isPySpace c = false := by
    intro c hc
    cases hc with
    | head => decide
    | tail _ hmem => exact isPySpace_eq_false_of_alpha c (heA c hmem)
  obtain ⟨u0, hu0, _h1, h2⟩ := splitJoin_decomp ('.' :: e) (by simp) hclean
    (s.map (fun c => if c = '/' then ' ' else c)) [] (by intro x hx; cases hx)
  obtain ⟨k, hks, hkeep⟩ := hk
  have hkmem : k ∈ s.map (fun c => if c = '/' then ' ' else c) := by
    refine List.mem_map.mpr ⟨k, hks, ?_⟩
    rw [if_neg (keep_not_slash k hkeep)]
  have hku0 : k ∈ u0 := h2 k (keep_not_space k hkeep) (Or.inl hkmem)
  have hfil : (u0 ++ '.' :: e).filter goodChar = u0.filter goodChar ++ '.' :: e := by
    rw [List.filter_append, List.filter_cons]
    have hfe : e.filter goodChar = e :=
      List.filter_eq_self.mpr (fun c hc => goodChar_of_alpha c (heA c hc))
    rw [hfe]
    rfl
  have hkfil : k ∈ u0.filter goodChar :=
    List.mem_filter.mpr ⟨hku0, keep_good k hkeep⟩
  obtain ⟨hdw, _hne⟩ := dropWhile_append_keep isStripC (u0.filter goodChar) ('.' :: e)
    ⟨k, hkfil, keep_not_strip k hkeep⟩
  refine ⟨(u0.filter goodChar).dropWhile isStripC, ?_⟩
  unfold secureList
  rw [hmap, hu0, hfil, hdw]
  have hrevnil : e.reverse ≠ [] := by
    intro hx
    exact he (List.reverse_eq_nil_iff.mp hx)
  cases hrev : e.reverse with
  | nil => exact absurd hrev hrevnil
  | cons y ys =>
    have hy : y.isAlpha = true := by
      apply heA
      rw [← List.mem_reverse, hrev]
      exact List.mem_cons_self y ys
    have hstep : (((u0.filter goodChar).dropWhile isStripC ++ '.' :: e).reverse).dropWhile
        isStripC = (((u0.filter goodChar).dropWhile isStripC ++ '.' :: e).reverse) := by
      rw [List.reverse_append, List.reverse_cons, hrev]
      rw [List.append_assoc]
      rw [List.cons_append]
      rw [List.dropWhile_cons]
      rw [if_neg (by simp [isStripC_eq_false_of_alpha y hy])]
    rw [hstep, List.reverse_reverse]

/-- Whitespace is not a digit. -/
theorem ws_not_digit (c : Char) (h : isPySpace c = true) : c.isDigit = false := by
  simp only [isPySpace, Bool.or_eq_true, decide_eq_true_eq] at h
  rcases h with ((((h1 | h1) | h1) | h1) | h1) | h1 <;> (subst h1; decide)

/-- The slash-to-space step preserves the number of digits. -/
theorem countDigit_map_slash (l : List Char) :
    (l.map (fun c => if c = '/' then ' ' else c)).countP Char.isDigit =
      l.countP Char.isDigit := by
  induction l with
  | nil => rfl
  | cons c rest ih =>
    rw [List.map_cons]
    by_cases hc : c = '/'
    · subst hc
      simp [List.countP_cons, ih]
    · rw [if_neg hc]
      simp [List.countP_cons, ih]

/-- Joining one more chunk adds its digits (the separator `_` adds none). -/
theorem countDigit_joinU_cons (x : List Char) (L : List (List Char)) :
    (joinU (x :: L)).countP Char.isDigit =
      x.countP Char.isDigit + (joinU L).countP Char.isDigit := by
  cases L with
  | nil => simp [joinU]
  | cons y L' =>
    rw [joinU_cons_ne x (y :: L') (by simp)]
    simp [List.countP_cons]

/-- The split-and-join step preserves the number of digits. -/
theorem countDigit_splitWs (l : List Char) :
    ∀ acc, (joinU (splitWsAux l acc)).countP Char.isDigit =
      l.countP Char.isDigit + acc.countP Char.isDigit := by
  induction l with
  | nil =>
    intro acc
    cases acc with
    | nil => simp [splitWsAux, joinU]
    | cons a as =>
      simp [splitWsAux, joinU, List.countP_cons]
  | cons c rest ih =>
    intro acc
    by_cases hc : isPySpace c = true
    · have hcd : c.isDigit = false := ws_not_digit c hc
      cases acc with
      | nil =>
        have hstep : splitWsAux (c :: rest) [] = splitWsAux rest [] := by
          simp [splitWsAux, hc]
        rw [hstep, ih []]
        simp [List.countP_cons, hcd]
      | cons a as =>
        have hstep : splitWsAux (c :: rest) (a :: as) =
            (a :: as).reverse :: splitWsAux rest [] := by
          simp [splitWsAux, hc]
        rw [hstep, countDigit_joinU_cons, ih []]
        simp only [List.countP_reverse, List.countP_nil, Nat.add_zero]
        have hcc : (c :: rest).countP Char.isDigit = rest.countP Char.isDigit := by
          rw [List.countP_cons]
          simp [hcd]
        rw [hcc]
        omega
    · have hc' : isPySpace c = false := Bool.eq_false_iff.mpr hc
      have hstep : splitWsAux (c :: rest) acc = splitWsAux rest (c :: acc) := by
        simp [splitWsAux, hc']
      rw [hstep, ih (c :: acc)]
      simp only [List.countP_cons]
      omega

/-- The regex-filter step preserves the number of digits. -/
theorem countDigit_filter_good (l : List Char) :
    (l.filter goodChar).countP Char.isDigit = l.countP Char.isDigit := by
  induction l with
  | nil => rfl
  | cons c rest ih =>
    rw [List.filter_cons]
    by_cases hg : goodChar c = true
    · simp only [hg, if_true, List.countP_cons, ih]
    · have hgd : c.isDigit = false := by
        rw [Bool.eq_false_iff]
        intro hd
        exact hg (by simp [goodChar, hd])
      simp only [hg, if_false, Bool.false_eq_true, ih, List.countP_cons, hgd]
      simp

/-- The end-stripping step preserves the number of digits. -/
theorem countDigit_dropStrip (l : List Char) :
    (l.dropWhile isStripC).countP Char.isDigit = l.countP Char.isDigit := by
  induction l with
  | nil => rfl
  | cons c rest ih =>
    by_cases hs : isStripC c = true
    · have hcd : c.isDigit = false := by
        simp only [isStripC, Bool.or_eq_true, decide_eq_true_eq] at hs
        rcases hs with h1 | h1 <;> (subst h1; decide)
      rw [List.dropWhile_cons, if_pos (by simp [hs]), ih,
        List.countP_cons_of_neg _ _ (by simp [hcd])]
    · rw [List.dropWhile_cons, if_neg (by simp [Bool.eq_false_iff.mpr hs])]

/-- Sanitization preserves the number of digits in a filename. -/
theorem countDigit_secureList (l : List Char) :
    (secureList l).countP Char.isDigit = l.countP Char.isDigit := by
  unfold secureList
  rw [List.countP_reverse, countDigit_dropStrip, List.countP_reverse,
    countDigit_dropStrip, countDigit_filter_good, countDigit_splitWs _ [],
    countDigit_map_slash]
  simp

/-- A fixed-width padded numeral has the requested width. -/
theorem pad_length (w n : Nat) : (pad w n).length = w := by
  simp [pad]

/-- A fixed-width padded numeral consists of digits. -/
theorem pad_digits (w n : Nat) : ∀ c ∈ pad w n, c.isDigit = true := by
  intro c hc
  unfold pad at hc
  obtain ⟨i, _, hci⟩ := List.mem_map.mp hc
  have hlt : n / 10 ^ i % 10 < 10 := Nat.mod_lt _ (by omega)
  rw [← hci]
  revert hlt
  generalize n / 10 ^ i % 10 = dd
  intro hlt
  interval_cases dd <;> decide

/-- The rendered timestamp has exactly 20 characters
(`YYYYMMDDHHMMSSffffff`). -/
theorem fmtTimestamp_len (t : DateTime) : (fmtTimestamp t).data.length = 20 := by
  unfold fmtTimestamp
  show (pad 4 t.year ++ pad 2 t.month ++ pad 2 t.day ++ pad 2 t.hour ++
    pad 2 t.minute ++ pad 2 t.second ++ pad 6 t.micro).length = 20
  simp [pad_length]

/-- The rendered timestamp consists of digits only. -/
theorem fmtTimestamp_digits (t : DateTime) :
    ∀ c ∈ (fmtTimestamp t).data, c.isDigit = true := by
  unfold fmtTimestamp
  intro c hc
  have hc2 : c ∈ pad 4 t.year ++ pad 2 t.month ++ pad 2 t.day ++ pad 2 t.hour ++
      pad 2 t.minute ++ pad 2 t.second ++ pad 6 t.micro := hc
  simp only [List.mem_append] at hc2
  rcases hc2 with ((((((h | h) | h) | h) | h) | h) | h) <;>
    exact pad_digits _ _ c h

/-- The rendered timestamp contains exactly 20 digits. -/
theorem fmtTimestamp_countDigit (t : DateTime) :
    (fmtTimestamp t).data.countP Char.isDigit = 20 := by
  have h2 := fmtTimestamp_digits t
  exact (List.countP_eq_length.mpr h2).trans (fmtTimestamp_len t)

/-- Concatenation of strings concatenates their character lists. -/
theorem string_append_data (a b : String) : (a ++ b).data = a.data ++ b.data := by
  cases a with
  | mk la =>
    cases b with
    | mk lb => rfl

/-- C7 counterexample: the accepted upload `".png"` (its text after the final
dot is `png`, so `allowed_file` passes) is sanitized to `png` — the leading
dot is stripped — so the stored reference `20240506070809123456_png` contains
no dot at all: the stored reference does not preserve the original's
extension. -/
theorem storedName_extension_refuted :
    allowed_file ".png" = true ∧
    (createPayment db0 1 "cash" "10" "" (some ⟨".png"⟩) dt0).2 = Except.ok () ∧
    (createPayment db0 1 "cash" "10" "" (some ⟨".png"⟩) dt0).1.files =
      ["20240506070809123456_png"] ∧
    ("20240506070809123456_png" : String).data.contains '.' = false ∧
    ¬afterLastDot ("20240506070809123456_png" : String).data =
      afterLastDot (".png" : String).data := by
  refine ⟨by decide, ?_, ?_, by decide, by decide⟩ <;> decide

/-- C7 amended: for an accepted upload whose filename's stem (the text before
the final dot) contains at least one letter, digit or hyphen, and a valid
timestamp, payment creation succeeds storing a reference equal to the
20-digit `YYYYMMDDHHMMSSffffff` timestamp, an underscore, and the sanitized
original filename; exactly that name is written to the upload store; the
stored reference preserves the original extension (same text after the final
dot) and differs from the original filename.  (Without the stem condition the
extension can be lost, see the counterexample; the timestamp bounds are what
make the fixed-width rendering agree with `strftime`.) -/
theorem createPayment_stored_name_amended
    (db : DB) (nid : Nat) (m a d : String) (f : Upload) (now : DateTime)
    (hn : neighborExists db nid = true)
    (hm : pyStrip m ≠ "")
    (ha : pyFloat (pyStrip a) ≠ none)
    (_hv : now.Valid)
    (hext : allowed_file f.filename = true)
    (hstem : ∃ k ∈ beforeLastDot f.filename.data, keepChar k = true) :
    ∃ stored : String,
      stored = fmtTimestamp now ++ "_" ++ secureFilename f.filename ∧
      (createPayment db nid m a d (some f) now).2 = Except.ok () ∧
      (createPayment db nid m a d (some f) now).1.files = db.files ++ [stored] ∧
      (∃ p, (createPayment db nid m a d (some f) now).1.payments =
        db.payments ++ [p] ∧ p.screenshot_path = some stored) ∧
      (fmtTimestamp now).data.length = 20 ∧
      (∀ c ∈ (fmtTimestamp now).data, c.isDigit = true) ∧
      afterLastDot stored.data = afterLastDot f.filename.data ∧
      stored ≠ f.filename := by
  have hf : ¬f.filename = "" := by
    intro hfe
    rw [hfe] at hext
    exact absurd hext (by decide)
  have hrun : createPayment db nid m a d (some f) now =
      ({ db with
          payments := db.payments ++
            [{ id := nextPaymentId db, neighbor_id := nid, method := pyStrip m,
               amount := (pyFloat (pyStrip a)).getD PyFloat.nan,
               deposit_account := if pyStrip d = "" then none else some (pyStrip d),
               screenshot_path :=
                 some (fmtTimestamp now ++ "_" ++ secureFilename f.filename),
               created_at := dtKey now }],
          files := db.files ++
            [fmtTimestamp now ++ "_" ++ secureFilename f.filename] },
        Except.ok ()) := by
    unfold createPayment
    rw [hn]
    simp only [eq_self_iff_true, if_true]
    cases hpf : pyFloat (pyStrip a) with
    | none => exact absurd hpf ha
    | some amt =>
      simp only [if_neg hm, if_neg hf, hext, if_true]
      rfl
  have hdata : (fmtTimestamp now ++ "_" ++ secureFilename f.filename).data =
      (fmtTimestamp now).data ++ '_' :: secureList f.filename.data := by
    rw [string_append_data, string_append_data]
    simp [secureFilename]
  have hsplit := hext
  simp only [allowed_file, Bool.and_eq_true] at hsplit
  obtain ⟨hcont, hallow⟩ := hsplit
  have hdot : '.' ∈ f.filename.data := by simpa using hcont
  obtain ⟨hdecomp, hnodot⟩ := ext_decomp f.filename.data hdot
  have heA := ext_chars_alpha (afterLastDot f.filename.data) hallow
  have hene : afterLastDot f.filename.data ≠ [] := by
    intro hnil
    rw [hnil] at hallow
    exact absurd hallow (by decide)
  obtain ⟨u, hu⟩ := secureList_decomp (beforeLastDot f.filename.data)
    (afterLastDot f.filename.data) hene heA hstem
  have hsec : secureList f.filename.data =
      u ++ '.' :: afterLastDot f.filename.data := by
    conv_lhs => rw [hdecomp]
    exact hu
  refine ⟨fmtTimestamp now ++ "_" ++ secureFilename f.filename, rfl, ?_, ?_, ?_,
    fmtTimestamp_len now, fmtTimestamp_digits now, ?_, ?_⟩
  · rw [hrun]
  · rw [hrun]
  · exact ⟨_, by rw [hrun], rfl⟩
  · rw [hdata, hsec]
    have hassoc : (fmtTimestamp now).data ++
        '_' :: (u ++ '.' :: afterLastDot f.filename.data) =
        ((fmtTimestamp now).data ++ '_' :: u) ++
          '.' :: afterLastDot f.filename.data := by
      simp
    rw [hassoc]
    exact afterLastDot_append _ _ hnodot
  · intro heq
    have hd := congrArg String.data heq
    rw [hdata] at hd
    have hcount := congrArg (List.countP Char.isDigit) hd
    simp only [List.countP_append, List.countP_cons, fmtTimestamp_countDigit,
      countDigit_secureList] at hcount
    simp at hcount

/-- Witness for the amended C7 at the spec's own example `evidence.png`. -/
theorem createPayment_stored_name_amended_witness :
    ∃ stored : String,
      stored = fmtTimestamp dt0 ++ "_" ++ secureFilename "evidence.png" ∧
      (createPayment db0 1 "cash" "12.50" "" (some ⟨"evidence.png"⟩) dt0).2 =
        Except.ok () ∧
      (createPayment db0 1 "cash" "12.50" "" (some ⟨"evidence.png"⟩) dt0).1.files =
        db0.files ++ [stored] ∧
      (∃ p, (createPayment db0 1 "cash" "12.50" "" (some ⟨"evidence.png"⟩)
          dt0).1.payments = db0.payments ++ [p] ∧ p.screenshot_path = some stored) ∧
      (fmtTimestamp dt0).data.length = 20 ∧
      (∀ c ∈ (fmtTimestamp dt0).data, c.isDigit = true) ∧
      afterLastDot stored.data = afterLastDot ("evidence.png" : String).data ∧
      stored ≠ "evidence.png" :=
  createPayment_stored_name_amended db0 1 "cash" "12.50" "" ⟨"evidence.png"⟩ dt0
    (by decide) (by decide) (by decide) (by unfold DateTime.Valid; decide)
    (by decide) (by decide)

end Estacionamiento
